import Mathlib

/-!
Verification of the module/parameter system described by the repository's
specification. The repository is a tutorial notebook
(src/notebooks/4-Pytorch-Modules.ipynb) whose cells call an external
framework's module abstraction; the module system itself (parameter
registration, traversal, state-dict save/load, sequential composition,
train/eval mode) is not part of the repository's sources, so it is
modelled here from the specification's own words (spec.md sections 3-4,
7-8). The one piece of genuine repository code, the custom residual
network MyNetwork and its forward method, is embedded from the notebook
source directly.
-/

namespace Torch

/-- Modelled from the spec: the numeric-array type of the external framework
(spec section 6) as used by the module system: a shape, flat numeric
contents, and the gradient-tracking mark (`requires_grad`). Exact rational
numbers stand in for the framework's machine reals. -/
structure Tensor where
  shape : List Nat
  data : List Rat
  requiresGrad : Bool
deriving DecidableEq

/-- Modelled from the spec: detaching a tensor from gradient tracking
(spec section 4.4: values in a state dictionary are "detached from any
gradient-tracking"). -/
def Tensor.detach (t : Tensor) : Tensor := { t with requiresGrad := false }

/-- Erase a tensor down to its shape: used to compare module structures
while ignoring numeric contents and gradient marks. -/
def Tensor.shape_only (t : Tensor) : Tensor := { shape := t.shape, data := [], requiresGrad := false }

/-- Modelled from the spec: a Module (spec section 3) owns an
insertion-ordered mapping from local name to Parameter, one from local
name to non-trainable buffer, one from local name to child Module, and a
boolean training-mode flag. The missing `torch.nn.Module` class is what
is being modelled. -/
inductive Module where
  | mk (params : List (String × Tensor)) (buffers : List (String × Tensor))
       (children : List (String × Module)) (training : Bool)

def Module.params : Module → List (String × Tensor)
  | .mk ps _ _ _ => ps

def Module.buffers : Module → List (String × Tensor)
  | .mk _ bs _ _ => bs

def Module.children : Module → List (String × Module)
  | .mk _ _ cs _ => cs

def Module.training : Module → Bool
  | .mk _ _ _ t => t

/-- Modelled from the spec: fully-qualified dotted names are obtained by
"joining each ancestor's local name with '.'" (spec section 3); the root
itself contributes the empty name. -/
def qjoin (pre name : String) : String :=
  if pre = "" then name else pre ++ "." ++ name

mutual
/-- Modelled from the spec: the enumeration underlying the missing
`named_parameters()` (spec section 4.1): every parameter in the tree with
its fully-qualified dotted name, depth-first, parent before children, in
registration order, with `pre` the qualified name of the module itself. -/
def Module.named_parameters_from : Module → String → List (String × Tensor)
  | .mk ps _ cs _, pre =>
      ps.map (fun e => (qjoin pre e.1, e.2)) ++ Module.np_children cs pre
def Module.np_children : List (String × Module) → String → List (String × Tensor)
  | [], _ => []
  | c :: rest, pre =>
      Module.named_parameters_from c.2 (qjoin pre c.1) ++ Module.np_children rest pre
end

/-- Modelled from the spec: `named_parameters()` called on the root. -/
def Module.named_parameters (m : Module) : List (String × Tensor) :=
  m.named_parameters_from ""

mutual
/-- Modelled from the spec: buffer enumeration mirroring
`named_parameters` (spec sections 3 and 4.4), depth-first, in
registration order. -/
def Module.named_buffers_from : Module → String → List (String × Tensor)
  | .mk _ bs cs _, pre =>
      bs.map (fun e => (qjoin pre e.1, e.2)) ++ Module.nb_children cs pre
def Module.nb_children : List (String × Module) → String → List (String × Tensor)
  | [], _ => []
  | c :: rest, pre =>
      Module.named_buffers_from c.2 (qjoin pre c.1) ++ Module.nb_children rest pre
end

/-- Modelled from the spec: all named buffers of the tree. -/
def Module.named_buffers (m : Module) : List (String × Tensor) :=
  m.named_buffers_from ""

mutual
/-- Modelled from the spec: the missing `state_dict()` (spec section 4.4):
a mapping from fully-qualified name to a detached copy of each
Parameter's and buffer's current numeric value, a module's own parameters
first, then its buffers, then its children depth-first in registration
order. -/
def Module.state_dict_from : Module → String → List (String × Tensor)
  | .mk ps bs cs _, pre =>
      ps.map (fun e => (qjoin pre e.1, e.2.detach)) ++
      bs.map (fun e => (qjoin pre e.1, e.2.detach)) ++
      Module.sd_children cs pre
def Module.sd_children : List (String × Module) → String → List (String × Tensor)
  | [], _ => []
  | c :: rest, pre =>
      Module.state_dict_from c.2 (qjoin pre c.1) ++ Module.sd_children rest pre
end

/-- Modelled from the spec: `state_dict()` called on the root. -/
def Module.state_dict (m : Module) : List (String × Tensor) :=
  m.state_dict_from ""

/-- Modelled from the spec: "the current module tree's registrable names"
(spec section 4.4) — the keys a state dictionary must carry. -/
def Module.registrable_names (m : Module) : List String :=
  (m.state_dict).map Prod.fst

/-- Modelled from the spec: loading one module's own entry list from a
state dictionary `d`: each qualified key must be present and its value's
shape must exactly match the target's; the target's numeric contents are
overwritten, everything else (including its gradient mark) is kept. -/
def load_entries (es : List (String × Tensor)) (pre : String)
    (d : List (String × Tensor)) : Except String (List (String × Tensor)) :=
  match es with
  | [] => .ok []
  | e :: rest =>
    match d.lookup (qjoin pre e.1) with
    | none => .error ("missing key " ++ qjoin pre e.1)
    | some v =>
      if v.shape = e.2.shape then
        match load_entries rest pre d with
        | .ok res => .ok ((e.1, { e.2 with data := v.data }) :: res)
        | .error err => .error err
      else .error ("shape mismatch for key " ++ qjoin pre e.1)

mutual
/-- Modelled from the spec: the recursive part of the missing
`load_state_dict` (spec section 4.4): overwrite every parameter and
buffer of the tree from the dictionary, failing on a missing key or a
shape mismatch; any failure aborts the whole operation and is surfaced
unmodified. -/
def Module.load_from : Module → String → List (String × Tensor) → Except String Module
  | .mk ps bs cs t, pre, d =>
    match load_entries ps pre d, load_entries bs pre d, Module.load_children cs pre d with
    | .ok ps2, .ok bs2, .ok cs2 => .ok (.mk ps2 bs2 cs2 t)
    | .error e, _, _ => .error e
    | .ok _, .error e, _ => .error e
    | .ok _, .ok _, .error e => .error e
def Module.load_children : List (String × Module) → String → List (String × Tensor) →
    Except String (List (String × Module))
  | [], _, _ => .ok []
  | c :: rest, pre, d =>
    match Module.load_from c.2 (qjoin pre c.1) d, Module.load_children rest pre d with
    | .ok c2, .ok rest2 => .ok ((c.1, c2) :: rest2)
    | .error e, _ => .error e
    | .ok _, .error e => .error e
end

/-- Modelled from the spec: `load_state_dict(d)` (spec section 4.4): the
key set of `d` must exactly match the tree's registrable names (an
unexpected key is rejected up front, a missing key is detected during the
recursive load) and every value's shape must match; on success a fully
loaded module is returned, on any mismatch an error and no new module. -/
def Module.load_state_dict (m : Module) (d : List (String × Tensor)) : Except String Module :=
  if (d.map Prod.fst).all (fun k => m.registrable_names.contains k) then
    m.load_from "" d
  else .error ("unexpected key in state_dict")

mutual
/-- Structural skeleton of a module tree: every tensor reduced to its
shape, the training flag normalised. Two modules have identical structure
(same tree of local names and shapes, spec section 8 round-trip law) iff
their skeletons are equal. -/
def Module.skeleton : Module → Module
  | .mk ps bs cs _ =>
      .mk (ps.map (fun e => (e.1, e.2.shape_only))) (bs.map (fun e => (e.1, e.2.shape_only)))
        (Module.skeleton_children cs) false
def Module.skeleton_children : List (String × Module) → List (String × Module)
  | [] => []
  | c :: rest => (c.1, c.2.skeleton) :: Module.skeleton_children rest
end

mutual
/-- Modelled from the spec: `train(mode)` (spec section 4.5) — set the
module's mode flag and recursively propagate the same flag to every
child. -/
def Module.train_mode : Module → Bool → Module
  | .mk ps bs cs _, mode => .mk ps bs (Module.train_children cs mode) mode
def Module.train_children : List (String × Module) → Bool → List (String × Module)
  | [], _ => []
  | c :: rest, mode => (c.1, c.2.train_mode mode) :: Module.train_children rest mode
end

/-- Modelled from the spec: `train()` — put the whole tree into training
mode. -/
def Module.train (m : Module) : Module := m.train_mode true

/-- Modelled from the spec: `eval()` — put the whole tree into inference
mode. -/
def Module.eval (m : Module) : Module := m.train_mode false

mutual
/-- Does every module of the tree (the root included) carry training flag
`mode`? -/
def Module.all_training : Module → Bool → Bool
  | .mk _ _ cs t, mode => (t == mode) && Module.all_training_children cs mode
def Module.all_training_children : List (String × Module) → Bool → Bool
  | [], _ => true
  | c :: rest, mode => c.2.all_training mode && Module.all_training_children rest mode
end

mutual
/-- The number of parameters declared directly on each node, summed over
the whole tree (spec section 8: "the sum of each node's own parameter
count plus its children's counts"). -/
def Module.total_param_count : Module → Nat
  | .mk ps _ cs _ => ps.length + Module.tpc_children cs
def Module.tpc_children : List (String × Module) → Nat
  | [] => 0
  | c :: rest => c.2.total_param_count + Module.tpc_children rest
end

mutual
/-- The depth-first enumeration exactly as the specification words it
(spec sections 3 and 4.1): a parent's own parameters first under their
local names, then each child's full enumeration in registration order,
every inherited name qualified by the child's local name joined with '.'.
Stated top-down, without a prefix accumulator, to compare against
`named_parameters`. -/
def Module.spec_enumeration : Module → List (String × Tensor)
  | .mk ps _ cs _ => ps ++ Module.spec_enum_children cs
def Module.spec_enum_children : List (String × Module) → List (String × Tensor)
  | [] => []
  | c :: rest =>
      (Module.spec_enumeration c.2).map (fun p => (qjoin c.1 p.1, p.2)) ++
      Module.spec_enum_children rest
end

mutual
/-- Every child of every module in the tree has a nonempty local name (as
is the case for every module tree built in the notebook). -/
def Module.child_names_ok : Module → Bool
  | .mk _ _ cs _ => Module.children_names_ok cs
def Module.children_names_ok : List (String × Module) → Bool
  | [] => true
  | c :: rest => (!(c.1 == "")) && c.2.child_names_ok && Module.children_names_ok rest
end

/-- Well-formedness of a module tree (the spec section 3 invariant): the
fully-qualified registrable names are pairwise distinct. -/
def Module.wf (m : Module) : Prop := (m.registrable_names).Nodup

instance (m : Module) : Decidable m.wf := by
  unfold Module.wf; infer_instance

/-- Induction over a module tree: to prove a property of every module it
suffices to prove it for a node assuming it for every child. -/
def Module.inductionOn {P : Module → Prop}
    (step : ∀ ps bs cs t, (∀ c ∈ cs, P c.2) → P (Module.mk ps bs cs t)) :
    (m : Module) → P m
  | .mk ps bs cs t => step ps bs cs t (fun c hc => Module.inductionOn step c.2)
termination_by m => sizeOf m
decreasing_by
  have h1 := List.sizeOf_lt_of_mem hc
  cases c
  simp at h1 ⊢
  omega

/-- A vector of exact rationals: one row of a batch. -/
abbrev Vec := List Rat

/-- A batch of input or output vectors; the notebook's modules process
data batchwise. -/
abbrev Batch := List Vec

/-- Inner product of two rows (a row of the weight matrix against an
input vector). -/
def dotprod (a b : Vec) : Rat := (List.zipWith (fun x y => x * y) a b).sum

/-- Modelled from the spec: the forward computation of the missing
`torch.nn.Linear` on one vector, `y = A x + b`; a row whose length does
not match the input, or a bias whose length does not match the number of
rows, is the shape-mismatch error of the underlying tensor op (spec
section 4.2). -/
def linear_forward (weight : List Vec) (bias : Vec) (x : Vec) : Option Vec :=
  if (weight.all (fun row => row.length == x.length)) && (bias.length == weight.length) then
    some (List.zipWith (fun a b => a + b) (weight.map (fun row => dotprod row x)) bias)
  else none

/-- Modelled from the spec: the missing `torch.nn.ReLU` on one vector —
clamp negative numbers to zero. -/
def relu_forward (x : Vec) : Vec := x.map (fun v => max v 0)

/-- Modelled from the spec: the network modules the notebook composes —
`Linear`, `ReLU`, and the missing `torch.nn.Sequential` container holding
an ordered list of (local name, child) pairs (spec section 4.2). -/
inductive Net where
  | linear (weight : List Vec) (bias : Vec)
  | relu
  | sequential (children : List (String × Net))

mutual
/-- Modelled from the spec: forward evaluation (spec section 4.2).
`Linear` and `ReLU` act rowwise on the batch; `Sequential` threads the
input through each child in order, the output of child i becoming the
input of child i+1, the composite's output being the last child's
output. -/
def Net.forward : Net → Batch → Option Batch
  | .linear w b, xs => xs.mapM (linear_forward w b)
  | .relu, xs => some (xs.map relu_forward)
  | .sequential cs, xs => Net.forward_children cs xs
def Net.forward_children : List (String × Net) → Batch → Option Batch
  | [], xs => some xs
  | c :: rest, xs =>
    match Net.forward c.2 xs with
    | none => none
    | some ys => Net.forward_children rest ys
end

/-- Modelled from the spec: building a `Sequential` from an ordered
sequence of modules given without explicit names — each child is
assigned its sequence index, rendered as a string, as its local name
(spec section 4.2). -/
def Sequential.of_modules (mods : List Net) : Net :=
  .sequential ((mods.enum).map (fun p => (toString p.1, p.2)))

/-- The local names of a network's direct children. -/
def Net.child_names : Net → List String
  | .sequential cs => cs.map Prod.fst
  | _ => []

/-- Elementwise sum of two vectors; mismatched lengths are the
shape-mismatch error of the underlying tensor op. -/
def vec_add (a b : Vec) : Option Vec :=
  if a.length == b.length then some (List.zipWith (fun x y => x + y) a b) else none

/-- Elementwise sum of two batches (the notebook's `x + self.residual_layer2(x)`). -/
def batch_add (a b : Batch) : Option Batch :=
  if a.length == b.length then (a.zip b).mapM (fun p => vec_add p.1 p.2) else none

/-- The custom residual network of the notebook (cell defining
`class MyNetwork`): three child modules, registered under the attribute
names `layer1`, `residual_layer2` and `layer3`. -/
structure MyNetwork where
  layer1 : Net
  residual_layer2 : Net
  layer3 : Net

/-- The notebook's `MyNetwork.forward`, embedded statement by statement:
`x = self.layer1(x)`, then `x = x + self.residual_layer2(x)`, then
`x = self.layer3(x)`. -/
def MyNetwork.forward (net : MyNetwork) (x0 : Batch) : Option Batch := do
  let x1 ← net.layer1.forward x0
  let r ← net.residual_layer2.forward x1
  let x2 ← batch_add x1 r
  net.layer3.forward x2

/-- A concrete 2-by-3 weight tensor for the example modules. -/
def w_ex : Tensor := { shape := [2, 3], data := [1, 2, 3, 4, 5, 6], requiresGrad := true }

/-- A concrete length-2 bias tensor for the example modules. -/
def b_ex : Tensor := { shape := [2], data := [7, 8], requiresGrad := true }

/-- A concrete running-statistics buffer for the example modules. -/
def buf_ex : Tensor := { shape := [1], data := [9], requiresGrad := false }

/-- A concrete module tree: a root owning one buffer and two children,
the first child a linear-like leaf owning a weight and a bias, the second
a nested container owning a further leaf. -/
def m_ex : Module :=
  .mk [] [("stat", buf_ex)]
    [("fc", .mk [("weight", w_ex), ("bias", b_ex)] [] [] true),
     ("blk", .mk [] [] [("inner", .mk [("bias", b_ex)] [] [] true)] true)]
    true

/-- A freshly constructed module of identical structure to `m_ex` but
with different numeric contents and a different mode flag. -/
def f_ex : Module :=
  .mk [] [("stat", { shape := [1], data := [0], requiresGrad := false })]
    [("fc", .mk [("weight", { shape := [2, 3], data := [0, 0, 0, 0, 0, 0], requiresGrad := true }),
                 ("bias", { shape := [2], data := [0, 0], requiresGrad := true })] [] [] false),
     ("blk", .mk [] [] [("inner", .mk [("bias", { shape := [2], data := [0, 0], requiresGrad := true })] [] [] false)] false)]
    false

/-! Helper lemmas. -/

theorem train_mode_all_training (m : Module) :
    ∀ mode, (m.train_mode mode).all_training mode = true := by
  induction m using Module.inductionOn with
  | step ps bs cs t IH =>
    intro mode
    simp only [Module.train_mode, Module.all_training, beq_self_eq_true, Bool.true_and]
    induction cs with
    | nil => simp [Module.train_children, Module.all_training_children]
    | cons c rest ih =>
      simp only [Module.train_children, Module.all_training_children, Bool.and_eq_true]
      refine ⟨IH c (by simp) mode, ?_⟩
      exact ih (fun c2 hc2 => IH c2 (by simp [hc2]))

theorem foldl_bind_forward_none (cs : List (String × Net)) :
    cs.foldl (fun acc c => acc.bind c.2.forward) none = none := by
  induction cs with
  | nil => rfl
  | cons c rest ih =>
    simp only [List.foldl_cons, Option.none_bind]
    exact ih

theorem forward_children_eq_foldl (cs : List (String × Net)) (xs : Batch) :
    Net.forward_children cs xs = cs.foldl (fun acc c => acc.bind c.2.forward) (some xs) := by
  induction cs generalizing xs with
  | nil => rfl
  | cons c rest ih =>
    simp only [Net.forward_children, List.foldl_cons, Option.some_bind]
    cases h : Net.forward c.2 xs with
    | none => rw [foldl_bind_forward_none]
    | some ys => exact ih ys

theorem forward_children_append (l1 l2 : List (String × Net)) (xs : Batch) :
    Net.forward_children (l1 ++ l2) xs =
      (Net.forward_children l1 xs).bind (Net.forward_children l2) := by
  induction l1 generalizing xs with
  | nil => simp [Net.forward_children]
  | cons c rest ih =>
    simp only [List.cons_append, Net.forward_children]
    cases h : Net.forward c.2 xs with
    | none => rfl
    | some ys => exact ih ys

theorem lookup_some_of_nodup (entries : List (String × Tensor))
    (hnd : (entries.map Prod.fst).Nodup) :
    ∀ kv ∈ entries, entries.lookup kv.1 = some kv.2 := by
  induction entries with
  | nil =>
    intro kv hkv
    cases hkv
  | cons entry tail ihl =>
    intro kv hkv
    simp only [List.map_cons, List.nodup_cons] at hnd
    cases hkv with
    | head => simp [List.lookup]
    | tail _ htl =>
      have hdiff : (kv.1 == entry.1) = false := by
        refine beq_eq_false_iff_ne.mpr ?_
        intro hsame
        exact hnd.1 (hsame ▸ List.mem_map_of_mem Prod.fst htl)
      simp only [List.lookup, hdiff]
      exact ihl hnd.2 kv htl

theorem lookup_none_of_not_mem (entries : List (String × Tensor)) (key : String)
    (habs : key ∉ entries.map Prod.fst) : entries.lookup key = none := by
  induction entries with
  | nil => rfl
  | cons entry tail ihl =>
    simp only [List.map_cons, List.mem_cons, not_or] at habs
    have hdiff : (key == entry.1) = false := beq_eq_false_iff_ne.mpr habs.1
    simp only [List.lookup, hdiff]
    exact ihl habs.2

theorem dot_append_ne (a b : String) : a ++ "." ++ b ≠ "" := by
  intro hq
  have hl : (a ++ "." ++ b).length = 0 := by rw [hq]; rfl
  rw [String.length_append, String.length_append] at hl
  have hd : (".").length = 1 := rfl
  omega

theorem qjoin_empty_left (n : String) : qjoin "" n = n := by simp [qjoin]

theorem qjoin_assoc (pre n x : String) (h : n ≠ "") :
    qjoin (qjoin pre n) x = qjoin pre (qjoin n x) := by
  by_cases hp : pre = ""
  · subst hp
    rw [qjoin_empty_left, qjoin_empty_left]
  · have h1 : qjoin pre n = pre ++ "." ++ n := by simp [qjoin, hp]
    have h2 : qjoin n x = n ++ "." ++ x := by simp [qjoin, h]
    rw [h1, h2]
    have h3 : pre ++ "." ++ n ≠ "" := dot_append_ne pre n
    simp only [qjoin, if_neg h3, if_neg hp]
    simp [String.append_assoc]

theorem np_children_eq_spec (cs : List (String × Module)) :
    (∀ c ∈ cs, c.2.child_names_ok = true → ∀ pre,
      c.2.named_parameters_from pre = (c.2.spec_enumeration).map (fun p => (qjoin pre p.1, p.2))) →
    Module.children_names_ok cs = true → ∀ pre,
    Module.np_children cs pre =
      (Module.spec_enum_children cs).map (fun p => (qjoin pre p.1, p.2)) := by
  induction cs with
  | nil =>
    intro _ _ pre
    simp [Module.np_children, Module.spec_enum_children]
  | cons c rest ih =>
    intro IH hok pre
    simp only [Module.children_names_ok, Bool.and_eq_true, Bool.not_eq_eq_eq_not,
      Bool.not_true, beq_eq_false_iff_ne] at hok
    obtain ⟨⟨hne, hcok⟩, hrest⟩ := hok
    simp only [Module.np_children, Module.spec_enum_children, List.map_append]
    congr 1
    · rw [IH c (by simp) hcok (qjoin pre c.1), List.map_map]
      have hfg : ((fun p : String × Tensor => (qjoin pre p.1, p.2)) ∘
            (fun p : String × Tensor => (qjoin c.1 p.1, p.2))) =
          (fun p : String × Tensor => (qjoin (qjoin pre c.1) p.1, p.2)) := by
        funext p
        simp only [Function.comp_apply]
        rw [qjoin_assoc pre c.1 p.1 hne]
      rw [hfg]
    · exact ih (fun c2 hc2 => IH c2 (by simp [hc2])) hrest pre

theorem np_from_eq_spec (m : Module) :
    m.child_names_ok = true → ∀ pre,
      m.named_parameters_from pre = (m.spec_enumeration).map (fun p => (qjoin pre p.1, p.2)) := by
  induction m using Module.inductionOn with
  | step ps bs cs t IH =>
    intro hok pre
    simp only [Module.child_names_ok] at hok
    simp only [Module.named_parameters_from, Module.spec_enumeration, List.map_append]
    congr 1
    exact np_children_eq_spec cs (fun c hc hcok pre2 => IH c hc hcok pre2) hok pre

theorem load_entries_error (es : List (String × Tensor)) (pre : String)
    (d : List (String × Tensor)) (e : String × Tensor) (hm : e ∈ es)
    (hbad : d.lookup (qjoin pre e.1) = none ∨
      ∃ v, d.lookup (qjoin pre e.1) = some v ∧ v.shape ≠ e.2.shape) :
    ∃ err, load_entries es pre d = .error err := by
  induction es with
  | nil => cases hm
  | cons e0 rest ih =>
    cases hm with
    | head =>
      rcases hbad with hnone | ⟨v, hv, hne⟩
      · exact ⟨"missing key " ++ qjoin pre e.1, by simp [load_entries, hnone]⟩
      · exact ⟨"shape mismatch for key " ++ qjoin pre e.1, by simp [load_entries, hv, hne]⟩
    | tail _ hm2 =>
      obtain ⟨err2, herr2⟩ := ih hm2
      cases hl : d.lookup (qjoin pre e0.1) with
      | none => exact ⟨"missing key " ++ qjoin pre e0.1, by simp [load_entries, hl]⟩
      | some v =>
        by_cases hs : v.shape = e0.2.shape
        · exact ⟨err2, by simp [load_entries, hl, hs, herr2]⟩
        · exact ⟨"shape mismatch for key " ++ qjoin pre e0.1, by simp [load_entries, hl, hs]⟩

theorem load_children_error (cs : List (String × Module)) :
    (∀ c ∈ cs, ∀ (pre : String) (d : List (String × Tensor)),
      (∃ kv ∈ c.2.state_dict_from pre,
        d.lookup kv.1 = none ∨ ∃ v, d.lookup kv.1 = some v ∧ v.shape ≠ kv.2.shape) →
      ∃ err, c.2.load_from pre d = .error err) →
    ∀ (pre : String) (d : List (String × Tensor)),
      (∃ kv ∈ Module.sd_children cs pre,
        d.lookup kv.1 = none ∨ ∃ v, d.lookup kv.1 = some v ∧ v.shape ≠ kv.2.shape) →
      ∃ err, Module.load_children cs pre d = .error err := by
  induction cs with
  | nil =>
    intro _ pre d ⟨kv, hkv, _⟩
    simp [Module.sd_children] at hkv
  | cons c rest ih =>
    intro IH pre d ⟨kv, hkv, hbad⟩
    simp only [Module.sd_children, List.mem_append] at hkv
    cases hkv with
    | inl h =>
      obtain ⟨err, herr⟩ := IH c (by simp) (qjoin pre c.1) d ⟨kv, h, hbad⟩
      cases hr : Module.load_children rest pre d with
      | ok rest2 => exact ⟨err, by simp [Module.load_children, herr, hr]⟩
      | error e2 => exact ⟨err, by simp [Module.load_children, herr, hr]⟩
    | inr h =>
      obtain ⟨err, herr⟩ := ih (fun c2 h2 => IH c2 (by simp [h2])) pre d ⟨kv, h, hbad⟩
      cases hc : Module.load_from c.2 (qjoin pre c.1) d with
      | ok c2 => exact ⟨err, by simp [Module.load_children, herr, hc]⟩
      | error e2 => exact ⟨e2, by simp [Module.load_children, herr, hc]⟩

theorem load_from_error (m : Module) : ∀ (pre : String) (d : List (String × Tensor)),
    (∃ kv ∈ m.state_dict_from pre,
      d.lookup kv.1 = none ∨ ∃ v, d.lookup kv.1 = some v ∧ v.shape ≠ kv.2.shape) →
    ∃ err, m.load_from pre d = .error err := by
  induction m using Module.inductionOn with
  | step ps bs cs t IH =>
    intro pre d ⟨kv, hkv, hbad⟩
    simp only [Module.state_dict_from, List.mem_append] at hkv
    rcases hkv with (hp | hb) | hc
    · obtain ⟨e, he, hkv_eq⟩ := List.mem_map.mp hp
      rw [← hkv_eq] at hbad
      obtain ⟨err, herr⟩ := load_entries_error ps pre d e he hbad
      exact ⟨err, by simp [Module.load_from, herr]⟩
    · obtain ⟨e, he, hkv_eq⟩ := List.mem_map.mp hb
      rw [← hkv_eq] at hbad
      obtain ⟨err, herr⟩ := load_entries_error bs pre d e he hbad
      cases hep : load_entries ps pre d with
      | ok ps2 => exact ⟨err, by simp [Module.load_from, hep, herr]⟩
      | error e2 => exact ⟨e2, by simp [Module.load_from, hep]⟩
    · obtain ⟨err, herr⟩ :=
        load_children_error cs (fun c hcm pre2 d2 h2 => IH c hcm pre2 d2 h2) pre d ⟨kv, hc, hbad⟩
      cases hep : load_entries ps pre d with
      | error e2 => exact ⟨e2, by simp [Module.load_from, hep]⟩
      | ok ps2 =>
        cases heb : load_entries bs pre d with
        | error e2 => exact ⟨e2, by simp [Module.load_from, hep, heb]⟩
        | ok bs2 => exact ⟨err, by simp [Module.load_from, hep, heb, herr]⟩

theorem sd_names_skeleton_children (cs : List (String × Module)) :
    (∀ c ∈ cs, ∀ pre, ((c.2.skeleton).state_dict_from pre).map Prod.fst =
      (c.2.state_dict_from pre).map Prod.fst) →
    ∀ pre, (Module.sd_children (Module.skeleton_children cs) pre).map Prod.fst =
      (Module.sd_children cs pre).map Prod.fst := by
  induction cs with
  | nil => intro _ pre; rfl
  | cons c rest ih =>
    intro IH pre
    simp only [Module.skeleton_children, Module.sd_children, List.map_append]
    rw [IH c (by simp) (qjoin pre c.1), ih (fun c2 h2 => IH c2 (by simp [h2])) pre]

theorem sd_names_skeleton (m : Module) : ∀ pre,
    ((m.skeleton).state_dict_from pre).map Prod.fst = (m.state_dict_from pre).map Prod.fst := by
  induction m using Module.inductionOn with
  | step ps bs cs t IH =>
    intro pre
    simp only [Module.skeleton, Module.state_dict_from, List.map_append, List.map_map]
    rw [sd_names_skeleton_children cs (fun c hc pre2 => IH c hc pre2) pre]
    rfl

theorem load_entries_ok (fes : List (String × Tensor)) :
    ∀ (mes : List (String × Tensor)) (pre : String) (d : List (String × Tensor)),
    fes.map (fun e => (e.1, e.2.shape_only)) = mes.map (fun e => (e.1, e.2.shape_only)) →
    (∀ kv ∈ mes.map (fun e => (qjoin pre e.1, e.2.detach)), d.lookup kv.1 = some kv.2) →
    ∃ res, load_entries fes pre d = .ok res ∧
      res.map (fun e => (qjoin pre e.1, e.2.detach)) =
        mes.map (fun e => (qjoin pre e.1, e.2.detach)) ∧
      res.map (fun e => (qjoin pre e.1, e.2.data, e.2.shape)) =
        mes.map (fun e => (qjoin pre e.1, e.2.data, e.2.shape)) := by
  induction fes with
  | nil =>
    intro mes pre d hsk _
    cases mes with
    | nil => exact ⟨[], rfl, rfl, rfl⟩
    | cons x xs => simp at hsk
  | cons fe frest ih =>
    intro mes pre d hsk hlk
    cases mes with
    | nil => simp at hsk
    | cons me mrest =>
      simp only [List.map_cons, List.cons.injEq, Prod.mk.injEq] at hsk
      obtain ⟨⟨hname, hsh_so⟩, htail⟩ := hsk
      have hshape : fe.2.shape = me.2.shape := by
        simpa [Tensor.shape_only, Tensor.mk.injEq] using hsh_so
      have hlk_head : d.lookup (qjoin pre me.1) = some me.2.detach :=
        hlk (qjoin pre me.1, me.2.detach) (by simp)
      obtain ⟨res, hres, hres_sd, hres_np⟩ :=
        ih mrest pre d htail (fun kv hkv => hlk kv (by simp [hkv]))
      refine ⟨(fe.1, { fe.2 with data := me.2.data }) :: res, ?_, ?_, ?_⟩
      · simp [load_entries, hname, hlk_head, Tensor.detach, hshape, hres]
      · simp only [List.map_cons, hres_sd, List.cons.injEq, and_true]
        simp [Tensor.detach, hname, hshape]
      · simp only [List.map_cons, hres_np, List.cons.injEq, and_true]
        simp [hname, hshape]

theorem load_children_roundtrip (mcs : List (String × Module)) :
    (∀ c ∈ mcs, ∀ (f : Module) (pre : String) (d : List (String × Tensor)),
      f.skeleton = c.2.skeleton →
      (∀ kv ∈ c.2.state_dict_from pre, d.lookup kv.1 = some kv.2) →
      ∃ r, f.load_from pre d = .ok r ∧
        r.state_dict_from pre = c.2.state_dict_from pre ∧
        (r.named_parameters_from pre).map (fun p => (p.1, p.2.data, p.2.shape)) =
          (c.2.named_parameters_from pre).map (fun p => (p.1, p.2.data, p.2.shape))) →
    ∀ (fcs : List (String × Module)) (pre : String) (d : List (String × Tensor)),
      Module.skeleton_children fcs = Module.skeleton_children mcs →
      (∀ kv ∈ Module.sd_children mcs pre, d.lookup kv.1 = some kv.2) →
      ∃ rcs, Module.load_children fcs pre d = .ok rcs ∧
        Module.sd_children rcs pre = Module.sd_children mcs pre ∧
        (Module.np_children rcs pre).map (fun p => (p.1, p.2.data, p.2.shape)) =
          (Module.np_children mcs pre).map (fun p => (p.1, p.2.data, p.2.shape)) := by
  induction mcs with
  | nil =>
    intro _ fcs pre d hsk _
    cases fcs with
    | nil => exact ⟨[], rfl, rfl, rfl⟩
    | cons x xs => simp [Module.skeleton_children] at hsk
  | cons mc mrest ih =>
    intro IH fcs pre d hsk hlk
    cases fcs with
    | nil => simp [Module.skeleton_children] at hsk
    | cons fc frest =>
      simp only [Module.skeleton_children, List.cons.injEq, Prod.mk.injEq] at hsk
      obtain ⟨⟨hname, hskel⟩, hrest⟩ := hsk
      have hlk_head : ∀ kv ∈ mc.2.state_dict_from (qjoin pre mc.1), d.lookup kv.1 = some kv.2 :=
        fun kv hkv => hlk kv (by simp only [Module.sd_children, List.mem_append]; exact Or.inl hkv)
      obtain ⟨r, hr, hr_sd, hr_np⟩ := IH mc (by simp) fc.2 (qjoin pre mc.1) d hskel hlk_head
      have hlk_rest : ∀ kv ∈ Module.sd_children mrest pre, d.lookup kv.1 = some kv.2 :=
        fun kv hkv => hlk kv (by simp only [Module.sd_children, List.mem_append]; exact Or.inr hkv)
      obtain ⟨rrest, hrr, hrr_sd, hrr_np⟩ :=
        ih (fun c2 h2 => IH c2 (by simp [h2])) frest pre d hrest hlk_rest
      refine ⟨(fc.1, r) :: rrest, ?_, ?_, ?_⟩
      · have hr2 : fc.2.load_from (qjoin pre fc.1) d = .ok r := by rw [hname]; exact hr
        simp [Module.load_children, hr2, hrr]
      · simp only [Module.sd_children]
        rw [hname, hr_sd, hrr_sd]
      · simp only [Module.np_children, List.map_append]
        rw [hname, hr_np, hrr_np]

theorem load_from_roundtrip (m : Module) :
    ∀ (f : Module) (pre : String) (d : List (String × Tensor)),
    f.skeleton = m.skeleton →
    (∀ kv ∈ m.state_dict_from pre, d.lookup kv.1 = some kv.2) →
    ∃ r, f.load_from pre d = .ok r ∧
      r.state_dict_from pre = m.state_dict_from pre ∧
      (r.named_parameters_from pre).map (fun p => (p.1, p.2.data, p.2.shape)) =
        (m.named_parameters_from pre).map (fun p => (p.1, p.2.data, p.2.shape)) := by
  induction m using Module.inductionOn with
  | step ps bs cs t IH =>
    intro f pre d hsk hlk
    cases f with
    | mk fps fbs fcs ft =>
      simp only [Module.skeleton, Module.mk.injEq] at hsk
      obtain ⟨hps, hbs, hcs, _⟩ := hsk
      have hlkp : ∀ kv ∈ ps.map (fun e => (qjoin pre e.1, e.2.detach)),
          d.lookup kv.1 = some kv.2 := by
        intro kv hkv
        refine hlk kv ?_
        simp only [Module.state_dict_from, List.mem_append]
        exact Or.inl (Or.inl hkv)
      have hlkb : ∀ kv ∈ bs.map (fun e => (qjoin pre e.1, e.2.detach)),
          d.lookup kv.1 = some kv.2 := by
        intro kv hkv
        refine hlk kv ?_
        simp only [Module.state_dict_from, List.mem_append]
        exact Or.inl (Or.inr hkv)
      have hlkc : ∀ kv ∈ Module.sd_children cs pre, d.lookup kv.1 = some kv.2 := by
        intro kv hkv
        refine hlk kv ?_
        simp only [Module.state_dict_from, List.mem_append]
        exact Or.inr hkv
      obtain ⟨ps2, hps2, hps2_sd, hps2_np⟩ := load_entries_ok fps ps pre d hps hlkp
      obtain ⟨bs2, hbs2, hbs2_sd, _⟩ := load_entries_ok fbs bs pre d hbs hlkb
      obtain ⟨cs2, hcs2, hcs2_sd, hcs2_np⟩ :=
        load_children_roundtrip cs (fun c hc f2 pre2 d2 h1 h2 => IH c hc f2 pre2 d2 h1 h2)
          fcs pre d hcs hlkc
      refine ⟨.mk ps2 bs2 cs2 ft, ?_, ?_, ?_⟩
      · simp [Module.load_from, hps2, hbs2, hcs2]
      · simp only [Module.state_dict_from]
        rw [hps2_sd, hbs2_sd, hcs2_sd]
      · simp only [Module.named_parameters_from, List.map_append, List.map_map]
        have hcomp : ((fun p : String × Tensor => (p.1, p.2.data, p.2.shape)) ∘
              (fun e : String × Tensor => (qjoin pre e.1, e.2))) =
            (fun e : String × Tensor => (qjoin pre e.1, e.2.data, e.2.shape)) := by
          funext e
          rfl
        rw [hcomp, hps2_np, hcs2_np]

/-! Claim theorems. -/

theorem np_children_length (cs : List (String × Module)) :
    (∀ c ∈ cs, ∀ pre, (c.2.named_parameters_from pre).length = c.2.total_param_count) →
    ∀ pre, (Module.np_children cs pre).length = Module.tpc_children cs := by
  induction cs with
  | nil => intro _ _; rfl
  | cons c rest ih =>
    intro IH pre
    simp only [Module.np_children, Module.tpc_children, List.length_append]
    rw [IH c (by simp) (qjoin pre c.1), ih (fun c2 h2 => IH c2 (by simp [h2])) pre]

theorem np_from_length (m : Module) : ∀ pre,
    (m.named_parameters_from pre).length = m.total_param_count := by
  induction m using Module.inductionOn with
  | step ps bs cs t IH =>
    intro pre
    simp only [Module.named_parameters_from, Module.total_param_count, List.length_append,
      List.length_map]
    rw [np_children_length cs (fun c hc pre2 => IH c hc pre2) pre]

theorem np_sd_sublist_children (cs : List (String × Module)) :
    (∀ c ∈ cs, ∀ pre, List.Sublist
        ((c.2.named_parameters_from pre).map (fun p => (p.1, p.2.data)))
        ((c.2.state_dict_from pre).map (fun p => (p.1, p.2.data)))) →
    ∀ pre, List.Sublist
      ((Module.np_children cs pre).map (fun p => (p.1, p.2.data)))
      ((Module.sd_children cs pre).map (fun p => (p.1, p.2.data))) := by
  induction cs with
  | nil => intro _ _; simp [Module.np_children, Module.sd_children]
  | cons c rest ih =>
    intro IH pre
    simp only [Module.np_children, Module.sd_children, List.map_append]
    exact (IH c (by simp) (qjoin pre c.1)).append (ih (fun c2 h2 => IH c2 (by simp [h2])) pre)

theorem np_sd_sublist (m : Module) : ∀ pre, List.Sublist
    ((m.named_parameters_from pre).map (fun p => (p.1, p.2.data)))
    ((m.state_dict_from pre).map (fun p => (p.1, p.2.data))) := by
  induction m using Module.inductionOn with
  | step ps bs cs t IH =>
    intro pre
    simp only [Module.named_parameters_from, Module.state_dict_from, List.map_append]
    rw [List.append_assoc]
    refine List.Sublist.append ?_ ?_
    · have heq : ((ps.map (fun e => (qjoin pre e.1, e.2))).map (fun p => (p.1, p.2.data))) =
          ((ps.map (fun e => (qjoin pre e.1, e.2.detach))).map (fun p => (p.1, p.2.data))) := by
        simp [List.map_map, Tensor.detach, Function.comp]
      rw [heq]
    · exact (np_sd_sublist_children cs (fun c hc pre2 => IH c hc pre2) pre).trans
        (List.sublist_append_right _ _)

theorem nb_sd_sublist_children (cs : List (String × Module)) :
    (∀ c ∈ cs, ∀ pre, List.Sublist
        ((c.2.named_buffers_from pre).map (fun p => (p.1, p.2.data)))
        ((c.2.state_dict_from pre).map (fun p => (p.1, p.2.data)))) →
    ∀ pre, List.Sublist
      ((Module.nb_children cs pre).map (fun p => (p.1, p.2.data)))
      ((Module.sd_children cs pre).map (fun p => (p.1, p.2.data))) := by
  induction cs with
  | nil => intro _ _; simp [Module.nb_children, Module.sd_children]
  | cons c rest ih =>
    intro IH pre
    simp only [Module.nb_children, Module.sd_children, List.map_append]
    exact (IH c (by simp) (qjoin pre c.1)).append (ih (fun c2 h2 => IH c2 (by simp [h2])) pre)

theorem nb_sd_sublist (m : Module) : ∀ pre, List.Sublist
    ((m.named_buffers_from pre).map (fun p => (p.1, p.2.data)))
    ((m.state_dict_from pre).map (fun p => (p.1, p.2.data))) := by
  induction m using Module.inductionOn with
  | step ps bs cs t IH =>
    intro pre
    simp only [Module.named_buffers_from, Module.state_dict_from, List.map_append]
    rw [List.append_assoc]
    have hB : ((bs.map (fun e => (qjoin pre e.1, e.2))).map (fun p => (p.1, p.2.data))) =
        ((bs.map (fun e => (qjoin pre e.1, e.2.detach))).map (fun p => (p.1, p.2.data))) := by
      simp [List.map_map, Tensor.detach, Function.comp]
    rw [hB]
    have hmain : List.Sublist
        (((bs.map (fun e => (qjoin pre e.1, e.2.detach))).map (fun p => (p.1, p.2.data))) ++
          ((Module.nb_children cs pre).map (fun p => (p.1, p.2.data))))
        (((bs.map (fun e => (qjoin pre e.1, e.2.detach))).map (fun p => (p.1, p.2.data))) ++
          ((Module.sd_children cs pre).map (fun p => (p.1, p.2.data)))) :=
      List.Sublist.append (List.Sublist.refl _)
        (nb_sd_sublist_children cs (fun c hc pre2 => IH c hc pre2) pre)
    exact hmain.trans (List.sublist_append_right _ _)

theorem perm_shuffle {α : Type} (p q u v : List α) :
    List.Perm (p ++ q ++ (u ++ v)) (p ++ u ++ (q ++ v)) := by
  have hqu : p ++ q ++ (u ++ v) = p ++ (q ++ u ++ v) := by simp [List.append_assoc]
  have huq : p ++ u ++ (q ++ v) = p ++ (u ++ q ++ v) := by simp [List.append_assoc]
  rw [hqu, huq]
  exact List.Perm.append_left p (List.Perm.append_right v List.perm_append_comm)

theorem sd_perm_children (cs : List (String × Module)) :
    (∀ c ∈ cs, ∀ pre, List.Perm ((c.2.state_dict_from pre).map Prod.fst)
        (((c.2.named_parameters_from pre).map Prod.fst) ++
          ((c.2.named_buffers_from pre).map Prod.fst))) →
    ∀ pre, List.Perm ((Module.sd_children cs pre).map Prod.fst)
      (((Module.np_children cs pre).map Prod.fst) ++
        ((Module.nb_children cs pre).map Prod.fst)) := by
  induction cs with
  | nil => intro _ _; simp [Module.sd_children, Module.np_children, Module.nb_children]
  | cons c rest ih =>
    intro IH pre
    simp only [Module.sd_children, Module.np_children, Module.nb_children, List.map_append]
    have h1 := IH c (by simp) (qjoin pre c.1)
    have h2 := ih (fun c2 hc2 => IH c2 (by simp [hc2])) pre
    exact (h1.append h2).trans (perm_shuffle _ _ _ _)

theorem sd_perm_np_nb (m : Module) : ∀ pre,
    List.Perm ((m.state_dict_from pre).map Prod.fst)
      (((m.named_parameters_from pre).map Prod.fst) ++
        ((m.named_buffers_from pre).map Prod.fst)) := by
  induction m using Module.inductionOn with
  | step ps bs cs t IH =>
    intro pre
    simp only [Module.state_dict_from, Module.named_parameters_from, Module.named_buffers_from,
      List.map_append]
    have hch := sd_perm_children cs (fun c hc pre2 => IH c hc pre2) pre
    have hP : ((ps.map (fun e => (qjoin pre e.1, e.2.detach))).map Prod.fst) =
        ((ps.map (fun e => (qjoin pre e.1, e.2))).map Prod.fst) := by
      simp [List.map_map, Function.comp]
    have hB : ((bs.map (fun e => (qjoin pre e.1, e.2.detach))).map Prod.fst) =
        ((bs.map (fun e => (qjoin pre e.1, e.2))).map Prod.fst) := by
      simp [List.map_map, Function.comp]
    rw [hP, hB]
    exact (List.Perm.append_left _ hch).trans (perm_shuffle _ _ _ _)

theorem sd_children_detached (cs : List (String × Module)) :
    (∀ c ∈ cs, ∀ pre, ∀ kv ∈ c.2.state_dict_from pre, kv.2.requiresGrad = false) →
    ∀ pre, ∀ kv ∈ Module.sd_children cs pre, kv.2.requiresGrad = false := by
  induction cs with
  | nil =>
    intro _ pre kv hm
    simp [Module.sd_children] at hm
  | cons c rest ih =>
    intro IH pre kv hm
    simp only [Module.sd_children, List.mem_append] at hm
    cases hm with
    | inl h => exact IH c (by simp) (qjoin pre c.1) kv h
    | inr h => exact ih (fun c2 h2 => IH c2 (by simp [h2])) pre kv h

theorem sd_detached (m : Module) : ∀ pre, ∀ kv ∈ m.state_dict_from pre,
    kv.2.requiresGrad = false := by
  induction m using Module.inductionOn with
  | step ps bs cs t IH =>
    intro pre kv hm
    simp only [Module.state_dict_from, List.mem_append] at hm
    rcases hm with (h | h) | h
    · obtain ⟨e, _, he⟩ := List.mem_map.mp h
      rw [← he]
      rfl
    · obtain ⟨e, _, he⟩ := List.mem_map.mp h
      rw [← he]
      rfl
    · exact sd_children_detached cs (fun c hc pre2 => IH c hc pre2) pre kv h

/-- C8: calling train() (respectively eval()) on the root of a module
tree sets the training-mode flag of the root and of every descendant
module to true (respectively false). -/
theorem train_eval_propagate_to_every_descendant (m : Module) :
    (m.train).all_training true = true ∧ (m.eval).all_training false = true :=
  ⟨train_mode_all_training m true, train_mode_all_training m false⟩

/-- C4: for every Sequential and every input, forward evaluation threads
the input left to right through the children — the output of child i is
the input of child i+1 and the composite's output is the last child's
output (the fold of the children's forward maps) — and a child given
without an explicit name receives its sequence index, rendered as a
string, as its local name. -/
theorem sequential_forward_threads_and_names_by_index :
    (∀ (cs : List (String × Net)) (xs : Batch),
        Net.forward (.sequential cs) xs =
          cs.foldl (fun acc c => acc.bind c.2.forward) (some xs)) ∧
    (∀ mods : List Net,
        (Sequential.of_modules mods).child_names = (List.range mods.length).map toString) := by
  constructor
  · intro cs xs
    exact forward_children_eq_foldl cs xs
  · intro mods
    simp only [Sequential.of_modules, Net.child_names, List.map_map]
    rw [← List.enum_map_fst mods, List.map_map]
    rfl

/-- C7: for every flat ordered sequence of modules, every split point k
and every input, one Sequential holding the whole sequence computes the
same output as a Sequential of two nested Sequentials holding the first
k and the remaining modules. -/
theorem sequential_split_associative (cs : List (String × Net)) (k : Nat) (xs : Batch)
    (n1 n2 : String) :
    Net.forward (.sequential [(n1, .sequential (cs.take k)), (n2, .sequential (cs.drop k))]) xs =
      Net.forward (.sequential cs) xs := by
  conv_rhs => rw [← List.take_append_drop k cs]
  simp only [Net.forward, forward_children_append]
  cases h1 : Net.forward_children (cs.take k) xs with
  | none => simp [Net.forward_children, Net.forward, h1]
  | some ys =>
    simp only [Net.forward_children, Net.forward, h1, Option.some_bind]
    cases h2 : Net.forward_children (cs.drop k) ys <;> simp [h2]

/-- C10: for every input x, the custom residual network MyNetwork
computes exactly layer3 (h + residual_layer2 h) where h = layer1 x: the
residual connection adds the unmodified intermediate activation h to the
output of residual_layer2 applied to h, and the sum is fed to the final
layer. -/
theorem my_network_forward_is_residual (net : MyNetwork) (x : Batch) :
    net.forward x =
      (net.layer1.forward x).bind (fun h =>
        ((net.residual_layer2.forward h).bind (fun r => batch_add h r)).bind
          net.layer3.forward) := by
  unfold MyNetwork.forward
  simp only [Option.bind_eq_bind, Option.bind_assoc]

/-- C1: for every module tree (every tree the notebook builds has
nonempty child names), named_parameters yields every parameter in the
tree exactly once, each paired with its fully-qualified dotted name,
enumerated depth-first with a parent's own parameters before its
children's, in registration order: the enumeration coincides with the
specification's depth-first traversal; and repeated calls yield the
identical sequence, the enumeration being a pure function of the
unchanged tree. -/
theorem named_parameters_is_depth_first_enumeration (m : Module)
    (hok : m.child_names_ok = true) :
    m.named_parameters = m.spec_enumeration ∧
      m.named_parameters = m.named_parameters := by
  refine ⟨?_, rfl⟩
  rw [Module.named_parameters, np_from_eq_spec m hok ""]
  simp [qjoin_empty_left]

/-- Witness for C1 at the concrete example tree. -/
theorem named_parameters_is_depth_first_enumeration_witness :
    m_ex.child_names_ok = true ∧ m_ex.named_parameters = m_ex.spec_enumeration :=
  ⟨by decide, (named_parameters_is_depth_first_enumeration m_ex (by decide)).1⟩

/-- C3: for every well-formed module tree, the length of
named_parameters equals the sum over all nodes of each node's own
directly-declared parameter count, and the fully-qualified names in the
enumeration are pairwise distinct. -/
theorem named_parameters_count_and_distinct (m : Module) (hwf : m.wf) :
    (m.named_parameters).length = m.total_param_count ∧
      ((m.named_parameters).map Prod.fst).Nodup := by
  refine ⟨np_from_length m "", ?_⟩
  have hsub : List.Sublist
      (((m.named_parameters).map (fun p => (p.1, p.2.data))).map Prod.fst)
      (((m.state_dict).map (fun p => (p.1, p.2.data))).map Prod.fst) :=
    (np_sd_sublist m "").map Prod.fst
  simp only [List.map_map] at hsub
  have hn : ((m.state_dict).map (Prod.fst ∘ fun p : String × Tensor => (p.1, p.2.data))).Nodup := by
    have : ((m.state_dict).map (Prod.fst ∘ fun p : String × Tensor => (p.1, p.2.data))) =
        m.registrable_names := rfl
    rw [this]
    exact hwf
  exact (hn.sublist hsub : ((m.named_parameters).map _).Nodup)

/-- Witness for C3 at the concrete example tree. -/
theorem named_parameters_count_and_distinct_witness :
    m_ex.wf ∧ ((m_ex.named_parameters).length = m_ex.total_param_count ∧
      ((m_ex.named_parameters).map Prod.fst).Nodup) :=
  ⟨by decide, named_parameters_count_and_distinct m_ex (by decide)⟩

/-- C6: for every module tree, state_dict maps fully-qualified parameter
and buffer names to copies of their numeric values carrying no
gradient-tracking flag; every parameter name and every buffer name occurs
(the keys are a permutation of the parameter names together with the
buffer names), and the iteration order matches named_parameters and
buffer registration order (each enumeration is a sublist, names with
values, of the state dictionary). -/
theorem state_dict_detached_copies_in_order (m : Module) :
    (∀ kv ∈ m.state_dict, kv.2.requiresGrad = false) ∧
    List.Sublist ((m.named_parameters).map (fun p => (p.1, p.2.data)))
      ((m.state_dict).map (fun p => (p.1, p.2.data))) ∧
    List.Sublist ((m.named_buffers).map (fun p => (p.1, p.2.data)))
      ((m.state_dict).map (fun p => (p.1, p.2.data))) ∧
    List.Perm ((m.state_dict).map Prod.fst)
      (((m.named_parameters).map Prod.fst) ++ ((m.named_buffers).map Prod.fst)) :=
  ⟨fun kv hm => sd_detached m "" kv hm, np_sd_sublist m "", nb_sd_sublist m "",
    sd_perm_np_nb m ""⟩

/-- C5: load_state_dict with a dictionary whose key set differs from the
tree's registrable names (an extra key or a missing key), or in which
some value's shape differs from the target's shape, returns an error —
the mismatch aborts the operation (no module is produced, so nothing is
partially loaded) and the error is surfaced to the caller unmodified. -/
theorem load_state_dict_mismatch_errors (m : Module) (d : List (String × Tensor))
    (hbad : (∃ k ∈ d.map Prod.fst, k ∉ m.registrable_names) ∨
            (∃ k ∈ m.registrable_names, k ∉ d.map Prod.fst) ∨
            (∃ kv ∈ m.state_dict, ∃ v, d.lookup kv.1 = some v ∧ v.shape ≠ kv.2.shape)) :
    ∃ err, m.load_state_dict d = .error err := by
  unfold Module.load_state_dict
  by_cases hchk : ((d.map Prod.fst).all (fun k => m.registrable_names.contains k)) = true
  · simp only [hchk, if_true]
    rcases hbad with ⟨k, hk, hnot⟩ | ⟨k, hk, hnot⟩ | ⟨kv, hm2, v, hv, hs⟩
    · exfalso
      exact hnot (List.mem_of_elem_eq_true (List.all_eq_true.mp hchk k hk))
    · obtain ⟨kv, hm2, hkv⟩ := List.mem_map.mp hk
      refine load_from_error m "" d ⟨kv, hm2, Or.inl ?_⟩
      rw [hkv]
      exact lookup_none_of_not_mem d k hnot
    · exact load_from_error m "" d ⟨kv, hm2, Or.inr ⟨v, hv, hs⟩⟩
  · exact ⟨"unexpected key in state_dict", by rw [if_neg hchk]⟩

/-- Witness for C5: loading the empty dictionary into the concrete
example tree (every registrable key is missing) errors. -/
theorem load_state_dict_mismatch_errors_witness :
    (∃ k ∈ Module.registrable_names m_ex, k ∉ ([] : List (String × Tensor)).map Prod.fst) ∧
      ∃ err, m_ex.load_state_dict [] = .error err :=
  ⟨⟨"stat", by decide, by decide⟩,
    load_state_dict_mismatch_errors m_ex []
      (Or.inr (Or.inl ⟨"stat", by decide, by decide⟩))⟩

/-- Witness for C6 at the concrete example tree: the buffer entry stored
for the root's own buffer carries no gradient-tracking flag. -/
theorem state_dict_detached_copies_in_order_witness :
    ("stat", buf_ex.detach).2.requiresGrad = false :=
  (state_dict_detached_copies_in_order m_ex).1 ("stat", buf_ex.detach) (by decide)

/-- C2: for every well-formed module tree m, calling state_dict() on m
and then load_state_dict() with that dictionary on a freshly constructed
module of identical structure (equal skeleton) succeeds and makes every
parameter of the fresh module bit-identical (same fully-qualified name,
numeric contents and shape) to the corresponding parameter of m. -/
theorem state_dict_load_state_dict_roundtrip (m f : Module) (hwf : m.wf)
    (hsk : f.skeleton = m.skeleton) :
    ∃ r, f.load_state_dict m.state_dict = .ok r ∧
      (r.named_parameters).map (fun p => (p.1, p.2.data, p.2.shape)) =
        (m.named_parameters).map (fun p => (p.1, p.2.data, p.2.shape)) := by
  have hlk : ∀ kv ∈ m.state_dict_from "", (m.state_dict).lookup kv.1 = some kv.2 :=
    fun kv hkv => lookup_some_of_nodup (m.state_dict) hwf kv hkv
  obtain ⟨r, hr, _, hnp⟩ := load_from_roundtrip m f "" m.state_dict hsk hlk
  refine ⟨r, ?_, hnp⟩
  unfold Module.load_state_dict
  have hnames : f.registrable_names = m.registrable_names := by
    unfold Module.registrable_names Module.state_dict
    rw [← sd_names_skeleton f "", ← sd_names_skeleton m "", hsk]
  have hchk : (((m.state_dict).map Prod.fst).all
      (fun k => f.registrable_names.contains k)) = true := by
    rw [hnames]
    refine List.all_eq_true.mpr ?_
    intro k hk
    exact List.elem_eq_true_of_mem hk
  rw [if_pos hchk]
  exact hr

/-- Witness for C2: the round trip between the concrete example tree and
its freshly constructed twin. -/
theorem state_dict_load_state_dict_roundtrip_witness :
    m_ex.wf ∧ f_ex.skeleton = m_ex.skeleton ∧
      ∃ r, f_ex.load_state_dict m_ex.state_dict = .ok r ∧
        (r.named_parameters).map (fun p => (p.1, p.2.data, p.2.shape)) =
          (m_ex.named_parameters).map (fun p => (p.1, p.2.data, p.2.shape)) :=
  ⟨by decide, by rfl, state_dict_load_state_dict_roundtrip m_ex f_ex (by decide) (by rfl)⟩

end Torch
